import Mathlib

/-!
Verification of the cobra-modules package (module.go).

The package supervises a set of modules: RunModules launches one goroutine per
module, each goroutine runs the module's Start with a shared child context,
publishes a non-nil error on an unbuffered channel, calls wg.Done, and then
fires a sync.Once that cancels the child context.  An outer goroutine waits on
the WaitGroup and closes the error channel; the calling goroutine drains the
channel, aggregating errors with multierr.Append, and returns once the channel
is closed.

The concurrency of module.go is embedded as a small-step interleaved
transition system: a state `St` records the program counter of the outer
goroutine, a program counter for every module goroutine, the child context's
cancellation flag, the sync.Once guard, the closed flag of the error channel,
the list of errors received so far (in arrival order), and whether the main
goroutine has returned from RunModules.  A `Task` names one atomic step of one
goroutine, and a schedule (a list of tasks) resolves the nondeterministic
interleaving.  Module instances are the package's external black boxes: a
module is abstracted by its flag-binding function, by whether its Start blocks
until the child context is cancelled (like waitStopModule in module_test.go)
or returns at once (like noopModule), and by the error value Start returns.
-/

set_option maxHeartbeats 1000000

namespace CobraModules

/-- Flag sets (pflag.FlagSet) are modelled as the list of bound flag names. -/
abbrev FlagSet := List String

/-- A cobra.Command, reduced to the only piece this package touches: the flag
set returned by c.Flags(). -/
structure Command where
  flags : FlagSet

/-- A Module (the interface of module.go).  `BindFlags` is the registration
method, modelled as a transformer of the command's flag set.  The `Start`
method is abstracted by the remaining two fields: `blocks` says whether Start
waits for the child context to be cancelled before returning (waitStopModule
in module_test.go; `blocks = false` returns at once, like noopModule), and
`ret` is the error value Start returns (`none` models a nil error). -/
structure Module where
  BindFlags : FlagSet → FlagSet
  blocks : Bool
  ret : Option String

/-- One recorded method call on a module, identified by its position in the
module slice.  Used to state which methods BindModuleFlags invokes. -/
inductive MCall where
  | bind (i : Nat)
  | start (i : Nat)
deriving DecidableEq

/-- One iteration of the loop in BindModuleFlags: call the module's BindFlags
on the command's current flag set and record the call. -/
def bindStep (acc : Command × List MCall) (im : Nat × Module) : Command × List MCall :=
  ({ acc.1 with flags := im.2.BindFlags acc.1.flags }, acc.2 ++ [MCall.bind im.1])

/-- BindModuleFlags iterates over the given modules and calls Module.BindFlags
with the command's flag set.  The second component is the instrumented log of
module-method calls made by the loop. -/
def BindModuleFlags (ms : List Module) (c : Command) : Command × List MCall :=
  ms.enum.foldl bindStep (c, [])

/-- Whether a recorded call is a Start invocation. -/
def isStartCall : MCall → Bool
  | .start _ => true
  | .bind _ => false

/-- Program counter of one module goroutine in RunModules:
`run`   : executing m.Start(ctx);
`send`  : Start returned a non-nil error, blocked on errCh <- err;
`wgDone`: about to execute wg.Done();
`once`  : about to execute stopCloseOnce.Do(cancel);
`done`  : the goroutine has finished. -/
inductive MPc where
  | run
  | send
  | wgDone
  | once
  | done
deriving DecidableEq

/-- Program counter of the outer goroutine of RunModules:
`launch k` : k module goroutines launched so far, still in the launch loop;
`wait`     : blocked in wg.Wait();
`closeCh`  : about to execute close(errCh);
`odone`    : the outer goroutine has finished. -/
inductive OPc where
  | launch (k : Nat)
  | wait
  | closeCh
  | odone
deriving DecidableEq

/-- State of one RunModules invocation.  `received` is the list of errors the
main goroutine has taken off errCh, in arrival order (the multierr.Append
chain); `returned` says the main goroutine's range loop has ended, i.e.
RunModules has returned. -/
structure St where
  opc : OPc
  pcs : Nat → MPc
  cancelled : Bool
  onceFired : Bool
  fireCount : Nat
  chClosed : Bool
  received : List String
  returned : Bool

/-- One atomic step of one goroutine:
`outer`        : next step of the outer goroutine (launch, wg.Wait, close);
`startRet i`   : module i's Start returns;
`recvErr i`    : rendezvous of module i's errCh send with the main receive;
`doneWg i`     : module i's goroutine executes wg.Done();
`fireOnce i`   : module i's goroutine executes stopCloseOnce.Do(cancel);
`finish`       : the main goroutine's range loop observes the closed channel;
`parentCancel` : the caller-supplied parent context is cancelled. -/
inductive Task where
  | outer
  | startRet (i : Nat)
  | recvErr (i : Nat)
  | doneWg (i : Nat)
  | fireOnce (i : Nat)
  | finish
  | parentCancel
deriving DecidableEq

/-- Number of module goroutines already launched, as recorded by the outer
program counter (after the launch loop, all of them are launched). -/
def launchedOf (n : Nat) : OPc → Nat
  | .launch k => k
  | _ => n

/-- The error value module i's Start returns (nil past the end of the list). -/
def retAt (ms : List Module) (i : Nat) : Option String :=
  match ms.get? i with
  | some m => m.ret
  | none => none

/-- Whether module i's Start blocks until the child context is cancelled. -/
def blocksAt (ms : List Module) (i : Nat) : Bool :=
  match ms.get? i with
  | some m => m.blocks
  | none => false

/-- A module program counter strictly past the errCh send (its error, if any,
has been received). -/
def pastSend : MPc → Bool
  | .run => false
  | .send => false
  | _ => true

/-- A module program counter strictly past wg.Done(). -/
def pastWg : MPc → Bool
  | .once => true
  | .done => true
  | _ => false

/-- The WaitGroup counter has reached zero: after wg.Add(len(modules)), every
module goroutine has executed its wg.Done(). -/
def allWgDone (n : Nat) (pcs : Nat → MPc) : Prop :=
  ∀ i, i < n → pastWg (pcs i) = true

instance (n : Nat) (pcs : Nat → MPc) : Decidable (allWgDone n pcs) :=
  decidable_of_iff (∀ i, i < n → pastWg (pcs i) = true) Iff.rfl

/-- Whether the named task is enabled in the given state (its goroutine exists
and is not blocked). -/
def enabled (ms : List Module) (s : St) : Task → Bool
  | .outer =>
      match s.opc with
      | .launch _ => true
      | .wait => decide (allWgDone ms.length s.pcs)
      | .closeCh => true
      | .odone => false
  | .startRet i =>
      decide (i < launchedOf ms.length s.opc) && (s.pcs i == .run)
        && (!blocksAt ms i || s.cancelled)
  | .recvErr i => (retAt ms i).isSome && (s.pcs i == .send) && !s.returned
  | .doneWg i => s.pcs i == .wgDone
  | .fireOnce i => s.pcs i == .once
  | .finish => s.chClosed && !s.returned
  | .parentCancel => !s.cancelled

/-- The effect of the named task on the state (meaningful when the task is
enabled). -/
def applyTask (ms : List Module) (s : St) : Task → St
  | .outer =>
      match s.opc with
      | .launch k =>
          if k < ms.length then
            { s with opc := if k + 1 = ms.length then .wait else .launch (k + 1) }
          else { s with opc := .wait }
      | .wait => { s with opc := .closeCh }
      | .closeCh => { s with opc := .odone, chClosed := true }
      | .odone => s
  | .startRet i =>
      let v : MPc := if (retAt ms i).isSome then .send else .wgDone
      { s with pcs := Function.update s.pcs i v }
  | .recvErr i =>
      match retAt ms i with
      | some e =>
          { s with pcs := Function.update s.pcs i .wgDone,
                   received := s.received ++ [e] }
      | none => s
  | .doneWg i => { s with pcs := Function.update s.pcs i .once }
  | .fireOnce i =>
      if s.onceFired = true then { s with pcs := Function.update s.pcs i .done }
      else { s with pcs := Function.update s.pcs i .done, onceFired := true,
                    cancelled := true, fireCount := s.fireCount + 1 }
  | .finish => { s with returned := true }
  | .parentCancel => { s with cancelled := true }

/-- One scheduled step: perform the task if it is enabled, otherwise the
goroutine stays blocked and the state is unchanged. -/
def stepTask (ms : List Module) (s : St) (t : Task) : St :=
  if enabled ms s t = true then applyTask ms s t else s

/-- Run a schedule of steps from a state. -/
def runSched (ms : List Module) (s : St) : List Task → St
  | [] => s
  | t :: ts => runSched ms (stepTask ms s t) ts

/-- State at the start of a RunModules invocation.  `ctx` says whether the
caller-supplied parent context is already cancelled when RunModules derives
the child context from it. -/
def initState (ctx : Bool) (_ms : List Module) : St :=
  { opc := .launch 0
    pcs := fun _ => .run
    cancelled := ctx
    onceFired := false
    fireCount := 0
    chClosed := false
    received := []
    returned := false }

/-- The state of a RunModules invocation after the given schedule of goroutine
steps, starting from the call with parent context `ctx` and module slice
`ms`. -/
def RunModules (ctx : Bool) (ms : List Module) (sched : List Task) : St :=
  runSched ms (initState ctx ms) sched

/-- NewModuleRunner returns a closure matching cobra's RunE signature; the
closure drops the command and the argument list and delegates to
RunModules. -/
def NewModuleRunner (ctx : Bool) (ms : List Module) :
    Command → List String → (List Task → St) :=
  fun _c _args => RunModules ctx ms

/-- Modelled from go.uber.org/multierr (an external dependency): appending
each received error in order and rendering the combined error joins the
individual messages with the separator "; "; if no error was appended the
combined error is nil. -/
def multierrResult : List String → Option String
  | [] => none
  | errs => some (String.intercalate "; " errs)

/-- The error value RunModules returns in a state where its range loop has
ended. -/
def resultOf (s : St) : Option String :=
  multierrResult s.received

/-- All goroutines of the invocation have finished and RunModules has
returned. -/
def terminal (ms : List Module) (s : St) : Prop :=
  s.returned = true ∧ s.opc = .odone ∧ ∀ i, i < ms.length → s.pcs i = .done

instance (ms : List Module) (s : St) : Decidable (terminal ms s) :=
  decidable_of_iff
    (s.returned = true ∧ s.opc = .odone ∧ ∀ i, i < ms.length → s.pcs i = .done)
    Iff.rfl

/-- Number of modules whose error has been received, counted per error
message: how many modules return the error `e` and have a program counter past
the errCh send. -/
def recordedCount (ms : List Module) (pcs : Nat → MPc) (e : String) : Nat :=
  ∑ i ∈ Finset.range ms.length,
    (if retAt ms i = some e ∧ pastSend (pcs i) = true then 1 else 0)

/-- Termination measure of one goroutine pc. -/
def pcMeasure : MPc → Nat
  | .run => 4
  | .send => 3
  | .wgDone => 2
  | .once => 1
  | .done => 0

/-- Termination measure of the outer goroutine pc. -/
def opcMeasure (n : Nat) : OPc → Nat
  | .launch k => (n - k) + 3
  | .wait => 2
  | .closeCh => 1
  | .odone => 0

/-- Measure contribution of a monotone boolean flag. -/
def boolMeasure (b : Bool) : Nat :=
  if b then 0 else 1

/-- Termination measure of a state: strictly decreases on every enabled
step. -/
def measureSt (ms : List Module) (s : St) : Nat :=
  opcMeasure ms.length s.opc
    + (∑ i ∈ Finset.range ms.length, pcMeasure (s.pcs i))
    + boolMeasure s.cancelled + boolMeasure s.returned

/-- Inductive invariant of the transition system, established by the initial
state and preserved by every step.  It records the structural facts about
module.go needed by the claims: unlaunched goroutines have not moved; the main
goroutine returns only after the channel is closed, which the outer goroutine
does only after wg.Wait, i.e. after every module goroutine's wg.Done; the
sync.Once guard has fired exactly when some module goroutine has finished, and
cancel() has then been called exactly once; a goroutine blocked on a channel
send has a non-nil error; and the received error list accounts exactly for
the modules whose goroutines are past their send. -/
structure Inv (ms : List Module) (s : St) : Prop where
  launchLe : ∀ k, s.opc = .launch k → k ≤ ms.length
  notLaunched : ∀ i, launchedOf ms.length s.opc ≤ i → s.pcs i = .run
  retClosed : s.returned = true → s.chClosed = true
  closedOpc : s.chClosed = true → s.opc = .odone
  odoneClosed : s.opc = .odone → s.chClosed = true
  opcWg : s.opc = .closeCh ∨ s.opc = .odone → allWgDone ms.length s.pcs
  onceIff : s.onceFired = true ↔ ∃ i, i < ms.length ∧ s.pcs i = .done
  fireEq : s.fireCount = if s.onceFired = true then 1 else 0
  onceCancel : s.onceFired = true → s.cancelled = true
  sendRet : ∀ i, s.pcs i = .send → (retAt ms i).isSome = true
  countEq : ∀ e, s.received.count e = recordedCount ms s.pcs e

/-- noopModule returning the error "test-error-1" (module_test.go). -/
def exNoopErr1 : Module := ⟨id, false, some "test-error-1"⟩

/-- waitStopModule returning the error "test-error-2" after cancellation
(module_test.go). -/
def exWaitErr2 : Module := ⟨id, true, some "test-error-2"⟩

/-- noopModule returning nil (module_test.go). -/
def exNoopNil : Module := ⟨id, false, none⟩

/-- waitStopModule returning nil after cancellation (module_test.go). -/
def exWaitNil : Module := ⟨id, true, none⟩

/-- Schedule for the empty module slice: the outer goroutine launches nothing,
wg.Wait returns at once, the channel is closed and the main loop ends. -/
def schedEmpty : List Task := [.outer, .outer, .outer, .finish]

/-- Schedule for a single nil-returning module in which RunModules returns
while the module's goroutine still has its stopCloseOnce.Do(cancel) step
pending. -/
def schedOneNil : List Task :=
  [.outer, .startRet 0, .doneWg 0, .outer, .outer, .finish]

/-- Completion of schedOneNil: the pending cancellation step also runs. -/
def schedOneNilFull : List Task := schedOneNil ++ [.fireOnce 0]

/-- Schedule for a single erroring module, stopped right after its wg.Done()
and before its stopCloseOnce.Do(cancel). -/
def schedOneErr : List Task := [.outer, .startRet 0, .recvErr 0, .doneWg 0]

/-- Schedule for [exNoopErr1, exWaitErr2]: module 0 errors immediately, the
cancellation it fires unblocks module 1, which then errors as well; both
errors arrive in that order. -/
def schedTwoErr : List Task :=
  [.outer, .outer, .startRet 0, .recvErr 0, .doneWg 0, .fireOnce 0,
   .startRet 1, .recvErr 1, .doneWg 1, .fireOnce 1, .outer, .outer, .finish]

/-- Schedule for [exNoopErr1, exWaitNil]: module 0 errors immediately, module
1 blocks until the fired cancellation and returns nil. -/
def schedErrNil : List Task :=
  [.outer, .outer, .startRet 0, .recvErr 0, .doneWg 0, .fireOnce 0,
   .startRet 1, .doneWg 1, .fireOnce 1, .outer, .outer, .finish]

theorem pastWg_pastSend {p : MPc} (h : pastWg p = true) : pastSend p = true := by
  cases p <;> simp_all [pastWg, pastSend]

theorem pastWg_once_or_done {p : MPc} (h : pastWg p = true) : p = .once ∨ p = .done := by
  cases p <;> simp_all [pastWg]

theorem sum_update_split (n i : Nat) (h : i < n) (F : Nat → MPc → Nat)
    (pcs : Nat → MPc) (v : MPc) :
    (∑ j ∈ Finset.range n, F j (Function.update pcs i v j)) + F i (pcs i)
      = (∑ j ∈ Finset.range n, F j (pcs j)) + F i v := by
  have hmem : i ∈ Finset.range n := Finset.mem_range.mpr h
  rw [← Finset.add_sum_erase _ (fun j => F j (Function.update pcs i v j)) hmem,
      ← Finset.add_sum_erase _ (fun j => F j (pcs j)) hmem]
  have hcongr : ∑ j ∈ (Finset.range n).erase i, F j (Function.update pcs i v j)
      = ∑ j ∈ (Finset.range n).erase i, F j (pcs j) := by
    refine Finset.sum_congr rfl ?_
    intro j hj
    rw [Function.update_noteq (Finset.ne_of_mem_erase hj)]
  rw [hcongr, Function.update_same]
  omega

theorem recordedCount_update (ms : List Module) (pcs : Nat → MPc) (i : Nat)
    (v : MPc) (e : String) (h : i < ms.length) :
    recordedCount ms (Function.update pcs i v) e
        + (if retAt ms i = some e ∧ pastSend (pcs i) = true then 1 else 0)
      = recordedCount ms pcs e
        + (if retAt ms i = some e ∧ pastSend v = true then 1 else 0) :=
  sum_update_split ms.length i h
    (fun j p => if retAt ms j = some e ∧ pastSend p = true then 1 else 0) pcs v

theorem pcSum_update (n : Nat) (pcs : Nat → MPc) (i : Nat) (v : MPc) (h : i < n) :
    (∑ j ∈ Finset.range n, pcMeasure (Function.update pcs i v j)) + pcMeasure (pcs i)
      = (∑ j ∈ Finset.range n, pcMeasure (pcs j)) + pcMeasure v :=
  sum_update_split n i h (fun _ p => pcMeasure p) pcs v

theorem launchedOf_le {ms : List Module} {s : St} (hI : Inv ms s) :
    launchedOf ms.length s.opc ≤ ms.length := by
  cases hopc : s.opc with
  | launch k => simpa [launchedOf] using hI.launchLe k hopc
  | wait => simp [launchedOf]
  | closeCh => simp [launchedOf]
  | odone => simp [launchedOf]

theorem lt_launched_of_ne_run {ms : List Module} {s : St} (hI : Inv ms s)
    {i : Nat} (h : s.pcs i ≠ .run) : i < launchedOf ms.length s.opc := by
  by_contra hge
  push_neg at hge
  exact h (hI.notLaunched i hge)

theorem lt_length_of_ne_run {ms : List Module} {s : St} (hI : Inv ms s)
    {i : Nat} (h : s.pcs i ≠ .run) : i < ms.length :=
  lt_of_lt_of_le (lt_launched_of_ne_run hI h) (launchedOf_le hI)

theorem notLaunched_update {ms : List Module} {s : St} (hI : Inv ms s)
    {i : Nat} (hlt : i < launchedOf ms.length s.opc) (v : MPc) :
    ∀ j, launchedOf ms.length s.opc ≤ j → Function.update s.pcs i v j = .run := by
  intro j hj
  have hne : j ≠ i := by omega
  rw [Function.update_noteq hne]
  exact hI.notLaunched j hj

theorem onceIff_update {ms : List Module} {s : St} (hI : Inv ms s)
    {i : Nat} {v : MPc} (hvold : s.pcs i ≠ .done) (hvnew : v ≠ .done) :
    s.onceFired = true ↔ ∃ j, j < ms.length ∧ Function.update s.pcs i v j = .done := by
  constructor
  · intro h
    obtain ⟨j, hj, hdone⟩ := hI.onceIff.mp h
    have hne : j ≠ i := by
      intro hji
      rw [hji] at hdone
      exact hvold hdone
    exact ⟨j, hj, by rw [Function.update_noteq hne]; exact hdone⟩
  · rintro ⟨j, hj, hdone⟩
    by_cases hji : j = i
    · rw [hji, Function.update_same] at hdone
      exact absurd hdone hvnew
    · rw [Function.update_noteq hji] at hdone
      exact hI.onceIff.mpr ⟨j, hj, hdone⟩

theorem sendRet_update {ms : List Module} {s : St} (hI : Inv ms s)
    {i : Nat} {v : MPc} (hv : v = .send → (retAt ms i).isSome = true) :
    ∀ j, Function.update s.pcs i v j = .send → (retAt ms j).isSome = true := by
  intro j hj
  by_cases hji : j = i
  · subst hji
    rw [Function.update_same] at hj
    exact hv hj
  · rw [Function.update_noteq hji] at hj
    exact hI.sendRet j hj

theorem opcWg_update_done {ms : List Module} {s : St} (hI : Inv ms s) {i : Nat} :
    s.opc = .closeCh ∨ s.opc = .odone →
      allWgDone ms.length (Function.update s.pcs i .done) := by
  intro h j hj
  by_cases hji : j = i
  · rw [hji, Function.update_same]
    rfl
  · rw [Function.update_noteq hji]
    exact hI.opcWg h j hj

theorem opcWg_vacuous {ms : List Module} {s : St} (hI : Inv ms s)
    {i : Nat} (hin : i < ms.length) (hpw : pastWg (s.pcs i) = false) :
    ¬ (s.opc = .closeCh ∨ s.opc = .odone) := by
  intro h
  have hw := hI.opcWg h i hin
  rw [hpw] at hw
  exact Bool.false_ne_true hw

theorem countEq_update_same_contrib {ms : List Module} {s : St} (hI : Inv ms s)
    {i : Nat} {v : MPc} (hin : i < ms.length)
    (hc : ∀ e, (if retAt ms i = some e ∧ pastSend (s.pcs i) = true then 1 else 0)
             = (if retAt ms i = some e ∧ pastSend v = true then (1 : Nat) else 0)) :
    ∀ e, s.received.count e = recordedCount ms (Function.update s.pcs i v) e := by
  intro e
  have hsplit := recordedCount_update ms s.pcs i v e hin
  have hold := hI.countEq e
  have hce := hc e
  omega

theorem inv_init (ctx : Bool) (ms : List Module) : Inv ms (initState ctx ms) := by
  refine ⟨?_, ?_, ?_, ?_, ?_, ?_, ?_, ?_, ?_, ?_, ?_⟩
  · intro k hk
    simp only [initState] at hk
    have : 0 = k := by
      injection hk
    omega
  · intro i _
    rfl
  · intro h
    simp [initState] at h
  · intro h
    simp [initState] at h
  · intro h
    simp [initState] at h
  · intro h
    rcases h with h | h <;> simp [initState] at h
  · constructor
    · intro h
      simp [initState] at h
    · rintro ⟨i, -, hd⟩
      simp [initState] at hd
  · simp [initState]
  · intro h
    simp [initState] at h
  · intro i h
    simp [initState] at h
  · intro e
    show ([] : List String).count e = recordedCount ms (fun _ => .run) e
    rw [List.count_nil]
    symm
    unfold recordedCount
    refine Finset.sum_eq_zero ?_
    intro i _
    rw [if_neg]
    rintro ⟨-, hp⟩
    exact Bool.false_ne_true hp

theorem inv_opc_change {ms : List Module} {s : St} (hI : Inv ms s) (o2 : OPc)
    (hl : ∀ k, o2 = .launch k → k ≤ ms.length)
    (hnl : ∀ i, launchedOf ms.length o2 ≤ i → s.pcs i = .run)
    (hco : s.chClosed = true → o2 = .odone)
    (hoc : o2 = .odone → s.chClosed = true)
    (hwg : o2 = .closeCh ∨ o2 = .odone → allWgDone ms.length s.pcs) :
    Inv ms { s with opc := o2 } :=
  ⟨hl, hnl, hI.retClosed, hco, hoc, hwg, hI.onceIff, hI.fireEq, hI.onceCancel,
   hI.sendRet, hI.countEq⟩

theorem inv_pcs_change {ms : List Module} {s : St} (hI : Inv ms s) (p2 : Nat → MPc)
    (hnl : ∀ i, launchedOf ms.length s.opc ≤ i → p2 i = .run)
    (hwg : s.opc = .closeCh ∨ s.opc = .odone → allWgDone ms.length p2)
    (hoi : s.onceFired = true ↔ ∃ i, i < ms.length ∧ p2 i = .done)
    (hsr : ∀ i, p2 i = .send → (retAt ms i).isSome = true)
    (hce : ∀ e, s.received.count e = recordedCount ms p2 e) :
    Inv ms { s with pcs := p2 } :=
  ⟨hI.launchLe, hnl, hI.retClosed, hI.closedOpc, hI.odoneClosed, hwg, hoi,
   hI.fireEq, hI.onceCancel, hsr, hce⟩

theorem inv_pcs_recv_change {ms : List Module} {s : St} (hI : Inv ms s)
    (p2 : Nat → MPc) (r2 : List String)
    (hnl : ∀ i, launchedOf ms.length s.opc ≤ i → p2 i = .run)
    (hwg : s.opc = .closeCh ∨ s.opc = .odone → allWgDone ms.length p2)
    (hoi : s.onceFired = true ↔ ∃ i, i < ms.length ∧ p2 i = .done)
    (hsr : ∀ i, p2 i = .send → (retAt ms i).isSome = true)
    (hce : ∀ e, r2.count e = recordedCount ms p2 e) :
    Inv ms { s with pcs := p2, received := r2 } :=
  ⟨hI.launchLe, hnl, hI.retClosed, hI.closedOpc, hI.odoneClosed, hwg, hoi,
   hI.fireEq, hI.onceCancel, hsr, hce⟩

theorem inv_step (ms : List Module) (s : St) (t : Task) (hI : Inv ms s) :
    Inv ms (stepTask ms s t) := by
  unfold stepTask
  by_cases hE : enabled ms s t = true
  · rw [if_pos hE]
    cases t with
    | outer =>
        cases hopc : s.opc with
        | launch k =>
            have happ : applyTask ms s .outer
                = if k < ms.length then
                    { s with opc := if k + 1 = ms.length then OPc.wait
                                    else OPc.launch (k + 1) }
                  else { s with opc := OPc.wait } := by
              simp [applyTask, hopc]
            rw [happ]
            have hchf : s.chClosed = false := by
              by_contra hcc
              rw [Bool.not_eq_false] at hcc
              have h2 := hI.closedOpc hcc
              rw [hopc] at h2
              exact absurd h2 (by simp)
            have hkle : k ≤ ms.length := hI.launchLe k hopc
            by_cases hk : k < ms.length
            · rw [if_pos hk]
              by_cases hk1 : k + 1 = ms.length
              · rw [if_pos hk1]
                refine inv_opc_change hI _ ?_ ?_ ?_ ?_ ?_
                · intro k2 h2
                  exact absurd h2 (by simp)
                · intro i hi
                  apply hI.notLaunched
                  rw [hopc]
                  simp only [launchedOf] at hi ⊢
                  omega
                · intro hcc
                  rw [hchf] at hcc
                  exact absurd hcc (by simp)
                · intro h2
                  exact absurd h2 (by simp)
                · intro h2
                  rcases h2 with h2 | h2 <;> exact absurd h2 (by simp)
              · rw [if_neg hk1]
                refine inv_opc_change hI _ ?_ ?_ ?_ ?_ ?_
                · intro k2 h2
                  injection h2 with h3
                  omega
                · intro i hi
                  apply hI.notLaunched
                  rw [hopc]
                  simp only [launchedOf] at hi ⊢
                  omega
                · intro hcc
                  rw [hchf] at hcc
                  exact absurd hcc (by simp)
                · intro h2
                  exact absurd h2 (by simp)
                · intro h2
                  rcases h2 with h2 | h2 <;> exact absurd h2 (by simp)
            · rw [if_neg hk]
              refine inv_opc_change hI _ ?_ ?_ ?_ ?_ ?_
              · intro k2 h2
                exact absurd h2 (by simp)
              · intro i hi
                apply hI.notLaunched
                rw [hopc]
                simp only [launchedOf] at hi ⊢
                omega
              · intro hcc
                rw [hchf] at hcc
                exact absurd hcc (by simp)
              · intro h2
                exact absurd h2 (by simp)
              · intro h2
                rcases h2 with h2 | h2 <;> exact absurd h2 (by simp)
        | wait =>
            have hall : allWgDone ms.length s.pcs := by
              have h2 : enabled ms s .outer = decide (allWgDone ms.length s.pcs) := by
                simp [enabled, hopc]
              rw [h2] at hE
              exact of_decide_eq_true hE
            have happ : applyTask ms s .outer = { s with opc := OPc.closeCh } := by
              simp [applyTask, hopc]
            rw [happ]
            have hchf : s.chClosed = false := by
              by_contra hcc
              rw [Bool.not_eq_false] at hcc
              have h2 := hI.closedOpc hcc
              rw [hopc] at h2
              exact absurd h2 (by simp)
            refine inv_opc_change hI _ ?_ ?_ ?_ ?_ ?_
            · intro k2 h2
              exact absurd h2 (by simp)
            · intro i hi
              apply hI.notLaunched
              rw [hopc]
              simpa [launchedOf] using hi
            · intro hcc
              rw [hchf] at hcc
              exact absurd hcc (by simp)
            · intro h2
              exact absurd h2 (by simp)
            · intro _
              exact hall
        | closeCh =>
            have happ : applyTask ms s .outer
                = { s with opc := OPc.odone, chClosed := true } := by
              simp [applyTask, hopc]
            rw [happ]
            refine ⟨?_, ?_, ?_, ?_, ?_, ?_, hI.onceIff, hI.fireEq, hI.onceCancel,
                    hI.sendRet, hI.countEq⟩
            · intro k2 h2
              exact absurd h2 (by simp)
            · intro i hi
              apply hI.notLaunched
              rw [hopc]
              simpa [launchedOf] using hi
            · intro _
              rfl
            · intro _
              rfl
            · intro _
              rfl
            · intro _
              exact hI.opcWg (Or.inl hopc)
        | odone =>
            exfalso
            simp [enabled, hopc] at hE
    | startRet i =>
        simp only [enabled, Bool.and_eq_true, decide_eq_true_eq, beq_iff_eq] at hE
        obtain ⟨⟨hlt, hrun⟩, -⟩ := hE
        have hin : i < ms.length := lt_of_lt_of_le hlt (launchedOf_le hI)
        have happ : applyTask ms s (.startRet i)
            = { s with pcs := Function.update s.pcs i (if (retAt ms i).isSome then MPc.send else MPc.wgDone) } := by
          simp [applyTask]
        rw [happ]
        refine inv_pcs_change hI _ ?_ ?_ ?_ ?_ ?_
        · exact notLaunched_update hI hlt _
        · intro h
          exact absurd h (opcWg_vacuous hI hin (by rw [hrun]; rfl))
        · refine onceIff_update hI (by rw [hrun]; simp) ?_
          split <;> simp
        · refine sendRet_update hI ?_
          split
          · intro _
            assumption
          · intro h
            exact absurd h (by simp)
        · refine countEq_update_same_contrib hI hin ?_
          intro e
          rcases hsome : retAt ms i with _ | e2
          · simp
          · simp [hrun, pastSend]
    | recvErr i =>
        simp only [enabled, Bool.and_eq_true, beq_iff_eq, Bool.not_eq_true'] at hE
        obtain ⟨⟨hsome, hsend⟩, hret⟩ := hE
        obtain ⟨e0, he0⟩ := Option.isSome_iff_exists.mp hsome
        have hin : i < ms.length := lt_length_of_ne_run hI (by rw [hsend]; simp)
        have happ : applyTask ms s (.recvErr i)
            = { s with pcs := Function.update s.pcs i MPc.wgDone,
                       received := s.received ++ [e0] } := by
          simp [applyTask, he0]
        rw [happ]
        refine inv_pcs_recv_change hI _ _ ?_ ?_ ?_ ?_ ?_
        · exact notLaunched_update hI (lt_launched_of_ne_run hI (by rw [hsend]; simp)) _
        · intro h
          exact absurd h (opcWg_vacuous hI hin (by rw [hsend]; rfl))
        · exact onceIff_update hI (by rw [hsend]; simp) (by simp)
        · refine sendRet_update hI ?_
          intro h
          exact absurd h (by simp)
        · intro e
          have hsplit := recordedCount_update ms s.pcs i .wgDone e hin
          have hold := hI.countEq e
          have h1 : (if retAt ms i = some e ∧ pastSend (s.pcs i) = true
              then (1 : Nat) else 0) = 0 := by
            rw [hsend]
            simp [pastSend]
          have h2 : (if retAt ms i = some e ∧ pastSend MPc.wgDone = true
              then (1 : Nat) else 0) = if e0 = e then 1 else 0 := by
            rw [he0]
            by_cases hee : e0 = e <;> simp [hee, pastSend]
          rw [h1, h2] at hsplit
          have h3 : ([e0] : List String).count e = if e0 = e then 1 else 0 := by
            by_cases hee : e0 = e <;> simp [List.count_cons, hee]
          rw [List.count_append, h3]
          omega
    | doneWg i =>
        simp only [enabled, beq_iff_eq] at hE
        have hin : i < ms.length := lt_length_of_ne_run hI (by rw [hE]; simp)
        have happ : applyTask ms s (.doneWg i)
            = { s with pcs := Function.update s.pcs i MPc.once } := by
          simp [applyTask]
        rw [happ]
        refine inv_pcs_change hI _ ?_ ?_ ?_ ?_ ?_
        · exact notLaunched_update hI (lt_launched_of_ne_run hI (by rw [hE]; simp)) _
        · intro h
          exact absurd h (opcWg_vacuous hI hin (by rw [hE]; rfl))
        · exact onceIff_update hI (by rw [hE]; simp) (by simp)
        · refine sendRet_update hI ?_
          intro h
          exact absurd h (by simp)
        · refine countEq_update_same_contrib hI hin ?_
          intro e
          rw [hE]
          simp [pastSend]
    | fireOnce i =>
        simp only [enabled, beq_iff_eq] at hE
        have hin : i < ms.length := lt_length_of_ne_run hI (by rw [hE]; simp)
        have hlt := lt_launched_of_ne_run hI (s := s) (i := i) (by rw [hE]; simp)
        by_cases hof : s.onceFired = true
        · have happ : applyTask ms s (.fireOnce i)
              = { s with pcs := Function.update s.pcs i MPc.done } := by
            simp [applyTask, hof]
          rw [happ]
          refine inv_pcs_change hI _ ?_ ?_ ?_ ?_ ?_
          · exact notLaunched_update hI hlt _
          · exact opcWg_update_done hI
          · constructor
            · intro _
              exact ⟨i, hin, Function.update_same i MPc.done s.pcs⟩
            · intro _
              exact hof
          · refine sendRet_update hI ?_
            intro h
            exact absurd h (by simp)
          · refine countEq_update_same_contrib hI hin ?_
            intro e
            rw [hE]
            simp [pastSend]
        · have happ : applyTask ms s (.fireOnce i)
              = { s with pcs := Function.update s.pcs i MPc.done,
                         onceFired := true, cancelled := true,
                         fireCount := s.fireCount + 1 } := by
            simp [applyTask, hof]
          rw [happ]
          refine ⟨hI.launchLe, ?_, hI.retClosed, hI.closedOpc, hI.odoneClosed,
                  ?_, ?_, ?_, ?_, ?_, ?_⟩
          · exact notLaunched_update hI hlt _
          · exact opcWg_update_done hI
          · constructor
            · intro _
              exact ⟨i, hin, Function.update_same i MPc.done s.pcs⟩
            · intro _
              rfl
          · have h0 := hI.fireEq
            rw [if_neg hof] at h0
            simp [h0]
          · intro _
            rfl
          · refine sendRet_update hI ?_
            intro h
            exact absurd h (by simp)
          · refine countEq_update_same_contrib hI hin ?_
            intro e
            rw [hE]
            simp [pastSend]
    | finish =>
        simp only [enabled, Bool.and_eq_true, Bool.not_eq_true'] at hE
        obtain ⟨hch, -⟩ := hE
        have happ : applyTask ms s .finish = { s with returned := true } := by
          simp [applyTask]
        rw [happ]
        exact ⟨hI.launchLe, hI.notLaunched, fun _ => hch, hI.closedOpc,
               hI.odoneClosed, hI.opcWg, hI.onceIff, hI.fireEq, hI.onceCancel,
               hI.sendRet, hI.countEq⟩
    | parentCancel =>
        have happ : applyTask ms s .parentCancel = { s with cancelled := true } := by
          simp [applyTask]
        rw [happ]
        exact ⟨hI.launchLe, hI.notLaunched, hI.retClosed, hI.closedOpc,
               hI.odoneClosed, hI.opcWg, hI.onceIff, hI.fireEq, fun _ => rfl,
               hI.sendRet, hI.countEq⟩
  · rw [if_neg hE]
    exact hI

theorem boolMeasure_le_one (b : Bool) : boolMeasure b ≤ 1 := by
  cases b <;> simp [boolMeasure]

theorem measure_decreases (ms : List Module) (s : St) (t : Task) (hI : Inv ms s)
    (hE : enabled ms s t = true) :
    measureSt ms (applyTask ms s t) < measureSt ms s := by
  cases t with
  | outer =>
      cases hopc : s.opc with
      | launch k =>
          have happ : applyTask ms s .outer
              = if k < ms.length then
                  { s with opc := if k + 1 = ms.length then OPc.wait
                                  else OPc.launch (k + 1) }
                else { s with opc := OPc.wait } := by
            simp [applyTask, hopc]
          rw [happ]
          by_cases hk : k < ms.length
          · rw [if_pos hk]
            by_cases hk1 : k + 1 = ms.length
            · rw [if_pos hk1]
              simp only [measureSt, hopc, opcMeasure]
              omega
            · rw [if_neg hk1]
              simp only [measureSt, hopc, opcMeasure]
              omega
          · rw [if_neg hk]
            simp only [measureSt, hopc, opcMeasure]
            omega
      | wait =>
          have happ : applyTask ms s .outer = { s with opc := OPc.closeCh } := by
            simp [applyTask, hopc]
          rw [happ]
          simp only [measureSt, hopc, opcMeasure]
          omega
      | closeCh =>
          have happ : applyTask ms s .outer
              = { s with opc := OPc.odone, chClosed := true } := by
            simp [applyTask, hopc]
          rw [happ]
          simp only [measureSt, hopc, opcMeasure]
          omega
      | odone =>
          exfalso
          simp [enabled, hopc] at hE
  | startRet i =>
      simp only [enabled, Bool.and_eq_true, decide_eq_true_eq, beq_iff_eq] at hE
      obtain ⟨⟨hlt, hrun⟩, -⟩ := hE
      have hin : i < ms.length := lt_of_lt_of_le hlt (launchedOf_le hI)
      have happ : applyTask ms s (.startRet i)
          = { s with pcs := Function.update s.pcs i (if (retAt ms i).isSome then MPc.send else MPc.wgDone) } := by
        simp [applyTask]
      rw [happ]
      have hsplit := pcSum_update ms.length s.pcs i
        (if (retAt ms i).isSome then MPc.send else MPc.wgDone) hin
      have hv : pcMeasure (if (retAt ms i).isSome then MPc.send else MPc.wgDone) ≤ 3 := by
        split <;> simp [pcMeasure]
      rw [hrun] at hsplit
      rw [show pcMeasure MPc.run = 4 from rfl] at hsplit
      simp only [measureSt]
      omega
  | recvErr i =>
      simp only [enabled, Bool.and_eq_true, beq_iff_eq, Bool.not_eq_true'] at hE
      obtain ⟨⟨hsome, hsend⟩, -⟩ := hE
      obtain ⟨e0, he0⟩ := Option.isSome_iff_exists.mp hsome
      have hin : i < ms.length := lt_length_of_ne_run hI (by rw [hsend]; simp)
      have happ : applyTask ms s (.recvErr i)
          = { s with pcs := Function.update s.pcs i MPc.wgDone,
                     received := s.received ++ [e0] } := by
        simp [applyTask, he0]
      rw [happ]
      have hsplit := pcSum_update ms.length s.pcs i MPc.wgDone hin
      rw [hsend] at hsplit
      rw [show pcMeasure MPc.send = 3 from rfl,
          show pcMeasure MPc.wgDone = 2 from rfl] at hsplit
      simp only [measureSt]
      omega
  | doneWg i =>
      simp only [enabled, beq_iff_eq] at hE
      have hin : i < ms.length := lt_length_of_ne_run hI (by rw [hE]; simp)
      have happ : applyTask ms s (.doneWg i)
          = { s with pcs := Function.update s.pcs i MPc.once } := by
        simp [applyTask]
      rw [happ]
      have hsplit := pcSum_update ms.length s.pcs i MPc.once hin
      rw [hE] at hsplit
      rw [show pcMeasure MPc.wgDone = 2 from rfl,
          show pcMeasure MPc.once = 1 from rfl] at hsplit
      simp only [measureSt]
      omega
  | fireOnce i =>
      simp only [enabled, beq_iff_eq] at hE
      have hin : i < ms.length := lt_length_of_ne_run hI (by rw [hE]; simp)
      have hsplit := pcSum_update ms.length s.pcs i MPc.done hin
      rw [hE] at hsplit
      rw [show pcMeasure MPc.once = 1 from rfl,
          show pcMeasure MPc.done = 0 from rfl] at hsplit
      by_cases hof : s.onceFired = true
      · have happ : applyTask ms s (.fireOnce i)
            = { s with pcs := Function.update s.pcs i MPc.done } := by
          simp [applyTask, hof]
        rw [happ]
        simp only [measureSt]
        omega
      · have happ : applyTask ms s (.fireOnce i)
            = { s with pcs := Function.update s.pcs i MPc.done,
                       onceFired := true, cancelled := true,
                       fireCount := s.fireCount + 1 } := by
          simp [applyTask, hof]
        rw [happ]
        have hb := boolMeasure_le_one s.cancelled
        simp only [measureSt]
        rw [show boolMeasure true = 0 from rfl]
        omega
  | finish =>
      simp only [enabled, Bool.and_eq_true, Bool.not_eq_true'] at hE
      obtain ⟨-, hret⟩ := hE
      have happ : applyTask ms s .finish = { s with returned := true } := by
        simp [applyTask]
      rw [happ]
      simp only [measureSt]
      rw [hret]
      simp [boolMeasure]
  | parentCancel =>
      simp only [enabled, Bool.not_eq_true'] at hE
      have happ : applyTask ms s .parentCancel = { s with cancelled := true } := by
        simp [applyTask]
      rw [happ]
      simp only [measureSt]
      rw [hE]
      simp [boolMeasure]

theorem progress (ms : List Module) (s : St) (hI : Inv ms s)
    (hterm : ¬ terminal ms s) : ∃ t, enabled ms s t = true := by
  by_cases hc : s.cancelled = true
  · cases hopc : s.opc with
    | launch k => exact ⟨.outer, by simp [enabled, hopc]⟩
    | wait =>
        by_cases hall : allWgDone ms.length s.pcs
        · exact ⟨.outer, by simp [enabled, hopc, hall]⟩
        · unfold allWgDone at hall
          push_neg at hall
          obtain ⟨i, hin, hpw⟩ := hall
          have hpw2 : pastWg (s.pcs i) = false := Bool.eq_false_iff.mpr hpw
          cases hpci : s.pcs i with
          | run =>
              refine ⟨.startRet i, ?_⟩
              simp [enabled, hopc, launchedOf, hin, hpci, hc]
          | send =>
              have hsome := hI.sendRet i hpci
              have hret : s.returned = false := by
                by_contra h2
                rw [Bool.not_eq_false] at h2
                have h3 := hI.closedOpc (hI.retClosed h2)
                rw [hopc] at h3
                exact absurd h3 (by simp)
              exact ⟨.recvErr i, by simp [enabled, hsome, hpci, hret]⟩
          | wgDone => exact ⟨.doneWg i, by simp [enabled, hpci]⟩
          | once =>
              rw [hpci] at hpw2
              exact absurd hpw2 (by simp [pastWg])
          | done =>
              rw [hpci] at hpw2
              exact absurd hpw2 (by simp [pastWg])
    | closeCh => exact ⟨.outer, by simp [enabled, hopc]⟩
    | odone =>
        by_cases hret : s.returned = true
        · have hnall : ¬ ∀ i, i < ms.length → s.pcs i = MPc.done := by
            intro hall2
            exact hterm ⟨hret, hopc, hall2⟩
          push_neg at hnall
          obtain ⟨i, hin, hnd⟩ := hnall
          have hpw := hI.opcWg (Or.inr hopc) i hin
          rcases pastWg_once_or_done hpw with h1 | h1
          · exact ⟨.fireOnce i, by simp [enabled, h1]⟩
          · exact absurd h1 hnd
        · rw [Bool.not_eq_true] at hret
          exact ⟨.finish, by simp [enabled, hI.odoneClosed hopc, hret]⟩
  · rw [Bool.not_eq_true] at hc
    exact ⟨.parentCancel, by simp [enabled, hc]⟩

theorem inv_runSched (ms : List Module) (s : St) (sched : List Task)
    (hI : Inv ms s) : Inv ms (runSched ms s sched) := by
  induction sched generalizing s with
  | nil => exact hI
  | cons t ts ih => exact ih _ (inv_step ms s t hI)

theorem inv_run (ctx : Bool) (ms : List Module) (sched : List Task) :
    Inv ms (RunModules ctx ms sched) :=
  inv_runSched ms (initState ctx ms) sched (inv_init ctx ms)

theorem reach_terminal (ms : List Module) :
    ∀ N s, measureSt ms s ≤ N → Inv ms s →
      ∃ sched, terminal ms (runSched ms s sched) := by
  intro N
  induction N with
  | zero =>
      intro s hm hI
      by_cases ht : terminal ms s
      · exact ⟨[], ht⟩
      · obtain ⟨t, hE⟩ := progress ms s hI ht
        have := measure_decreases ms s t hI hE
        omega
  | succ N ih =>
      intro s hm hI
      by_cases ht : terminal ms s
      · exact ⟨[], ht⟩
      · obtain ⟨t, hE⟩ := progress ms s hI ht
        have hdec := measure_decreases ms s t hI hE
        have hstep : stepTask ms s t = applyTask ms s t := by
          unfold stepTask
          rw [if_pos hE]
        have hI2 : Inv ms (stepTask ms s t) := inv_step ms s t hI
        obtain ⟨sched, hsched⟩ := ih (stepTask ms s t) (by rw [hstep]; omega) hI2
        exact ⟨t :: sched, by simpa [runSched] using hsched⟩

theorem retAt_cons (m : Module) (ms : List Module) (i : Nat) :
    retAt (m :: ms) (i + 1) = retAt ms i := rfl

theorem retAt_zero (m : Module) (ms : List Module) : retAt (m :: ms) 0 = m.ret := rfl

theorem retAt_eq_some {ms : List Module} {i : Nat} {e : String}
    (h : retAt ms i = some e) : ∃ m, ms.get? i = some m ∧ m.ret = some e := by
  unfold retAt at h
  cases hms : ms.get? i with
  | none =>
      rw [hms] at h
      exact Option.noConfusion h
  | some m =>
      rw [hms] at h
      exact ⟨m, rfl, h⟩

theorem sum_retAt_count (ms : List Module) (e : String) :
    (∑ i ∈ Finset.range ms.length, if retAt ms i = some e then 1 else 0)
      = (ms.map (fun m => m.ret)).count (some e) := by
  induction ms with
  | nil => simp
  | cons m ms ih =>
      rw [List.length_cons, Finset.sum_range_succ']
      simp only [retAt_cons, retAt_zero]
      rw [ih, List.map_cons, List.count_cons]
      by_cases hme : m.ret = some e
      · simp [hme]
      · simp [hme]

theorem recordedCount_allPast {ms : List Module} {pcs : Nat → MPc}
    (h : ∀ i, i < ms.length → pastSend (pcs i) = true) (e : String) :
    recordedCount ms pcs e = (ms.map (fun m => m.ret)).count (some e) := by
  unfold recordedCount
  rw [← sum_retAt_count ms e]
  refine Finset.sum_congr rfl ?_
  intro i hi
  rw [h i (Finset.mem_range.mp hi)]
  simp

theorem recordedCount_allNil {ms : List Module} (h : ∀ m ∈ ms, m.ret = none)
    (pcs : Nat → MPc) (e : String) : recordedCount ms pcs e = 0 := by
  unfold recordedCount
  refine Finset.sum_eq_zero ?_
  intro i _
  rw [if_neg]
  rintro ⟨hce, -⟩
  obtain ⟨m, hm, hmr⟩ := retAt_eq_some hce
  rw [h m (List.get?_mem hm)] at hmr
  exact Option.noConfusion hmr

theorem count_eq_single {l : List String} {e : String}
    (h : ∀ a, l.count a = if a = e then 1 else 0) : l = [e] := by
  cases l with
  | nil =>
      have h0 := h e
      simp at h0
  | cons a t =>
      have h1 := h a
      rw [List.count_cons_self] at h1
      have ha : a = e := by
        by_contra hae
        rw [if_neg hae] at h1
        omega
      rw [if_pos ha] at h1
      have ht : t = [] := by
        rw [List.eq_nil_iff_forall_not_mem]
        intro b hb
        have hpos : 0 < t.count b := by
          rw [List.count_pos_iff]
          exact hb
        have h2 := h b
        rw [List.count_cons] at h2
        by_cases hbe : b = e
        · rw [if_pos hbe] at h2
          have hab : (a == b) = true := by
            rw [beq_iff_eq, ha, hbe]
          rw [hab] at h2
          simp at h2
          omega
        · rw [if_neg hbe] at h2
          omega
      rw [ht, ha]

theorem returned_pastWg {ms : List Module} {s : St} (hI : Inv ms s)
    (h : s.returned = true) : allWgDone ms.length s.pcs :=
  hI.opcWg (Or.inr (hI.closedOpc (hI.retClosed h)))

theorem returned_pastSend {ms : List Module} {s : St} (hI : Inv ms s)
    (h : s.returned = true) : ∀ i, i < ms.length → pastSend (s.pcs i) = true :=
  fun i hi => pastWg_pastSend (returned_pastWg hI h i hi)

theorem returned_count {ms : List Module} {s : St} (hI : Inv ms s)
    (h : s.returned = true) :
    ∀ e, s.received.count e = (ms.map (fun m => m.ret)).count (some e) := by
  intro e
  rw [hI.countEq e, recordedCount_allPast (returned_pastSend hI h) e]

theorem multierrResult_single (e : String) : multierrResult [e] = some e := rfl

theorem bindModuleFlags_enumFrom (ms : List Module) :
    ∀ (k : Nat) (c : Command) (log : List MCall),
      ((List.enumFrom k ms).foldl bindStep (c, log)).2
          = log ++ (List.range' k ms.length).map MCall.bind
        ∧ ((List.enumFrom k ms).foldl bindStep (c, log)).1.flags
          = ms.foldl (fun fs m => m.BindFlags fs) c.flags := by
  induction ms with
  | nil =>
      intro k c log
      constructor
      · simp [List.enumFrom, List.range']
      · rfl
  | cons m ms ih =>
      intro k c log
      have henum : List.enumFrom k (m :: ms) = (k, m) :: List.enumFrom (k + 1) ms := rfl
      rw [henum, List.foldl_cons]
      have hstep : bindStep (c, log) (k, m)
          = ({ c with flags := m.BindFlags c.flags }, log ++ [MCall.bind k]) := rfl
      rw [hstep]
      obtain ⟨ha, hb⟩ := ih (k + 1) { c with flags := m.BindFlags c.flags }
        (log ++ [MCall.bind k])
      constructor
      · rw [ha]
        have hr : List.range' k (m :: ms).length = k :: List.range' (k + 1) ms.length := by
          rw [List.length_cons]
          rfl
        rw [hr, List.map_cons, List.append_assoc]
        rfl
      · rw [hb]
        rfl

/-- Claim C1 (counterexample): RunModules can return while a module goroutine
is still executing.  With a single nil-returning module and the schedule
schedOneNil, the range loop has ended (RunModules has returned) while the
module's goroutine is still at its stopCloseOnce.Do(cancel) step, which has
not yet run (the context is not yet cancelled). -/
theorem run_returns_before_goroutine_done :
    (RunModules false [exNoopNil] schedOneNil).returned = true
  ∧ (RunModules false [exNoopNil] schedOneNil).pcs 0 = MPc.once
  ∧ (RunModules false [exNoopNil] schedOneNil).cancelled = false := by
  refine ⟨?_, ?_, ?_⟩ <;> decide

/-- Claim C1 (amended): whenever RunModules has returned, every module
goroutine has at least finished its Start, had its error received, and
executed wg.Done; only the final single-fire cancellation step may still be
pending (program counter once), otherwise the goroutine is done. -/
theorem run_full_join_after_wgdone (ctx : Bool) (ms : List Module)
    (sched : List Task) (h : (RunModules ctx ms sched).returned = true) :
    ∀ i, i < ms.length →
      (RunModules ctx ms sched).pcs i = MPc.once
    ∨ (RunModules ctx ms sched).pcs i = MPc.done := by
  intro i hi
  exact pastWg_once_or_done (returned_pastWg (inv_run ctx ms sched) h i hi)

/-- Claim C1 (witness): the amended full-join theorem applied to the concrete
single-module execution. -/
theorem run_full_join_after_wgdone_witness :
    (RunModules false [exNoopNil] schedOneNil).pcs 0 = MPc.once
  ∨ (RunModules false [exNoopNil] schedOneNil).pcs 0 = MPc.done :=
  run_full_join_after_wgdone false [exNoopNil] schedOneNil (by decide) 0 (by decide)

/-- Claim C2 (counterexample): for the empty module slice, a complete
execution of RunModules finishes with the shared cancellation scope never
triggered: cancel() is called zero times, not exactly once. -/
theorem empty_modules_no_cancel_trigger :
    terminal [] (RunModules false [] schedEmpty)
  ∧ (RunModules false [] schedEmpty).fireCount = 0
  ∧ (RunModules false [] schedEmpty).cancelled = false := by
  refine ⟨?_, ?_, ?_⟩ <;> decide

/-- Claim C2 (amended): the sync.Once guard calls cancel() at most once in
every execution, and exactly once in every complete execution with at least
one module. -/
theorem cancel_single_fire (ctx : Bool) (ms : List Module) (sched : List Task) :
    (RunModules ctx ms sched).fireCount ≤ 1
  ∧ (ms ≠ [] → terminal ms (RunModules ctx ms sched) →
      (RunModules ctx ms sched).fireCount = 1) := by
  have hI := inv_run ctx ms sched
  constructor
  · rw [hI.fireEq]
    split <;> omega
  · intro hne hterm
    have hn : 0 < ms.length := List.length_pos.mpr hne
    have hof : (RunModules ctx ms sched).onceFired = true :=
      hI.onceIff.mpr ⟨0, hn, hterm.2.2 0 hn⟩
    rw [hI.fireEq, if_pos hof]

/-- Claim C2 (witness): the single-fire theorem applied to a complete
single-module execution. -/
theorem cancel_single_fire_witness :
    (RunModules false [exNoopNil] schedOneNilFull).fireCount = 1 :=
  (cancel_single_fire false [exNoopNil] schedOneNilFull).2
    (List.cons_ne_nil _ _) (by decide)

/-- Claim C3: when RunModules has returned, the received error list accounts
for every non-nil error of every module, none dropped and none duplicated
(counted per message), and the combined error joins the received messages in
arrival order with the separator "; ". -/
theorem errors_complete_arrival_order (ctx : Bool) (ms : List Module)
    (sched : List Task) (h : (RunModules ctx ms sched).returned = true) :
    (∀ e, (RunModules ctx ms sched).received.count e
        = (ms.map (fun m => m.ret)).count (some e))
  ∧ ((RunModules ctx ms sched).received ≠ [] →
      resultOf (RunModules ctx ms sched)
        = some (String.intercalate "; " (RunModules ctx ms sched).received)) := by
  have hI := inv_run ctx ms sched
  refine ⟨returned_count hI h, ?_⟩
  intro hne
  unfold resultOf multierrResult
  cases hrec : (RunModules ctx ms sched).received with
  | nil => exact absurd hrec hne
  | cons a t => rfl

/-- Claim C3 (witness): the test scenario of module_test.go; the two errors
arrive in order and the aggregated message is "test-error-1; test-error-2". -/
theorem errors_complete_arrival_order_witness :
    (RunModules false [exNoopErr1, exWaitErr2] schedTwoErr).received.count "test-error-1"
        = (([exNoopErr1, exWaitErr2].map (fun m => m.ret)).count (some "test-error-1"))
  ∧ resultOf (RunModules false [exNoopErr1, exWaitErr2] schedTwoErr)
      = some "test-error-1; test-error-2" := by
  constructor
  · exact (errors_complete_arrival_order false [exNoopErr1, exWaitErr2] schedTwoErr
      (by decide)).1 "test-error-1"
  · decide

/-- Claim C4: if every module's Start returns nil, RunModules returns nil
whenever it returns; in particular this holds for the empty module slice. -/
theorem all_nil_returns_nil (ctx : Bool) (ms : List Module) (sched : List Task)
    (h1 : ∀ m ∈ ms, m.ret = none)
    (h2 : (RunModules ctx ms sched).returned = true) :
    resultOf (RunModules ctx ms sched) = none := by
  have hI := inv_run ctx ms sched
  have hnil : (RunModules ctx ms sched).received = [] := by
    rw [List.eq_nil_iff_forall_not_mem]
    intro a ha
    have hpos : 0 < (RunModules ctx ms sched).received.count a := by
      rw [List.count_pos_iff]
      exact ha
    have hz := hI.countEq a
    rw [recordedCount_allNil h1 _ a] at hz
    omega
  unfold resultOf
  rw [hnil]
  rfl

/-- Claim C4 (witness): the empty module slice returns nil. -/
theorem all_nil_returns_nil_witness :
    resultOf (RunModules false [] schedEmpty) = none :=
  all_nil_returns_nil false [] schedEmpty (by simp) (by decide)

/-- Claim C5: when exactly one module returns a non-nil error and every other
module returns nil, the error RunModules returns (whenever it returns) has
exactly that error's message, and a complete execution exists in which every
module goroutine finishes (cancellation reaches and unblocks every module). -/
theorem single_error_message_and_join (ctx : Bool) (ms : List Module) (e : String)
    (h1 : (ms.map (fun m => m.ret)).count (some e) = 1)
    (h2 : ∀ e2, e2 ≠ e → (ms.map (fun m => m.ret)).count (some e2) = 0) :
    (∀ sched, (RunModules ctx ms sched).returned = true →
        resultOf (RunModules ctx ms sched) = some e)
  ∧ ∃ sched, terminal ms (RunModules ctx ms sched) := by
  constructor
  · intro sched hret
    have hI := inv_run ctx ms sched
    have hcnt := returned_count hI hret
    have hsingle : (RunModules ctx ms sched).received = [e] := by
      apply count_eq_single
      intro a
      rw [hcnt a]
      by_cases hae : a = e
      · rw [if_pos hae, hae]
        exact h1
      · rw [if_neg hae]
        exact h2 a hae
    unfold resultOf
    rw [hsingle]
    exact multierrResult_single e
  · exact reach_terminal ms (measureSt ms (initState ctx ms)) (initState ctx ms)
      le_rfl (inv_init ctx ms)

/-- Claim C5 (witness): one erroring module plus one blocking nil module;
the returned failure message is exactly "test-error-1". -/
theorem single_error_message_and_join_witness :
    resultOf (RunModules false [exNoopErr1, exWaitNil] schedErrNil)
      = some "test-error-1" :=
  (single_error_message_and_join false [exNoopErr1, exWaitNil] "test-error-1"
      (by decide)
      (by
        intro e2 he2
        simp [exNoopErr1, exWaitNil, List.count_cons, Ne.symm he2])).1
    schedErrNil (by decide)

/-- Claim C6: in a complete execution with at least one module in which every
module returns nil, the single-fire guard has still fired and the shared
child scope is cancelled: cancellation triggering does not depend on a
non-nil error. -/
theorem cancel_on_success (ctx : Bool) (ms : List Module) (sched : List Task)
    (h1 : ms ≠ []) (h2 : ∀ m ∈ ms, m.ret = none)
    (h3 : terminal ms (RunModules ctx ms sched)) :
    (RunModules ctx ms sched).onceFired = true
  ∧ (RunModules ctx ms sched).cancelled = true := by
  have hI := inv_run ctx ms sched
  have hn : 0 < ms.length := List.length_pos.mpr h1
  have hof : (RunModules ctx ms sched).onceFired = true :=
    hI.onceIff.mpr ⟨0, hn, h3.2.2 0 hn⟩
  exact ⟨hof, hI.onceCancel hof⟩

/-- Claim C6 (witness): a single nil-returning module still cancels the
shared scope. -/
theorem cancel_on_success_witness :
    (RunModules false [exNoopNil] schedOneNilFull).onceFired = true
  ∧ (RunModules false [exNoopNil] schedOneNilFull).cancelled = true :=
  cancel_on_success false [exNoopNil] schedOneNilFull (List.cons_ne_nil _ _)
    (by simp [exNoopNil]) (by decide)

/-- Claim C7 (counterexample): a reachable state of a single-error execution
in which the goroutine has already recorded its error and signalled
completion via wg.Done (program counter once, i.e. past wgDone), while the
cancellation trigger has not yet fired: in module.go wg.Done() precedes
stopCloseOnce.Do(cancel), contradicting the claimed record-cancel-complete
order. -/
theorem wgdone_precedes_cancel_trigger :
    (RunModules false [exNoopErr1] schedOneErr).received = ["test-error-1"]
  ∧ (RunModules false [exNoopErr1] schedOneErr).pcs 0 = MPc.once
  ∧ (RunModules false [exNoopErr1] schedOneErr).onceFired = false
  ∧ (RunModules false [exNoopErr1] schedOneErr).cancelled = false := by
  refine ⟨?_, ?_, ?_, ?_⟩ <;> decide

/-- Claim C7 (amended): in every reachable state, the recorded errors are
exactly those of modules past their send (so recording happens before
wg.Done), and the single-fire cancellation trigger has fired exactly when
some module goroutine has fully finished (so triggering is the final step,
after the completion signal). -/
theorem per_goroutine_step_order (ctx : Bool) (ms : List Module)
    (sched : List Task) :
    (∀ e, (RunModules ctx ms sched).received.count e
        = recordedCount ms (RunModules ctx ms sched).pcs e)
  ∧ ((RunModules ctx ms sched).onceFired = true
      ↔ ∃ i, i < ms.length ∧ (RunModules ctx ms sched).pcs i = MPc.done) :=
  ⟨(inv_run ctx ms sched).countEq, (inv_run ctx ms sched).onceIff⟩

/-- Claim C7 (witness): the order theorem applied to a complete
single-module execution. -/
theorem per_goroutine_step_order_witness :
    ∃ i, i < ([exNoopNil] : List Module).length
        ∧ (RunModules false [exNoopNil] schedOneNilFull).pcs i = MPc.done :=
  (per_goroutine_step_order false [exNoopNil] schedOneNilFull).2.mp (by decide)

/-- Claim C8: no reachable state of RunModules is deadlocked (every
non-terminal reachable state has an enabled step, in particular a pending
errCh send always finds the draining receiver), and from every reachable
state a complete execution exists in which RunModules returns and every
goroutine finishes. -/
theorem no_deadlock_and_termination (ctx : Bool) (ms : List Module)
    (sched : List Task) :
    (¬ terminal ms (RunModules ctx ms sched) →
        ∃ t, enabled ms (RunModules ctx ms sched) t = true)
  ∧ ∃ sched2, terminal ms (runSched ms (RunModules ctx ms sched) sched2) := by
  have hI := inv_run ctx ms sched
  constructor
  · intro h
    exact progress ms _ hI h
  · exact reach_terminal ms (measureSt ms (RunModules ctx ms sched))
      (RunModules ctx ms sched) le_rfl hI

/-- Claim C8 (witness): the progress half applied to the initial state of a
single-module invocation. -/
theorem no_deadlock_and_termination_witness :
    ∃ t, enabled [exNoopNil] (RunModules false [exNoopNil] []) t = true :=
  (no_deadlock_and_termination false [exNoopNil] []).1 (by decide)

/-- Claim C9: BindModuleFlags calls BindFlags exactly once per module, in
slice order, never calls Start, and threads the command's single flag set
through the calls in that order. -/
theorem bindModuleFlags_once_in_order (ms : List Module) (c : Command) :
    (BindModuleFlags ms c).2 = (List.range ms.length).map MCall.bind
  ∧ (BindModuleFlags ms c).2.countP isStartCall = 0
  ∧ (BindModuleFlags ms c).1.flags
      = ms.foldl (fun fs m => m.BindFlags fs) c.flags := by
  have henum : ms.enum = List.enumFrom 0 ms := rfl
  obtain ⟨ha, hb⟩ := bindModuleFlags_enumFrom ms 0 c []
  rw [List.nil_append] at ha
  unfold BindModuleFlags
  rw [henum]
  refine ⟨?_, ?_, hb⟩
  · rw [ha, List.range_eq_range']
  · rw [ha]
    simp [List.countP_map, isStartCall, Function.comp]

/-- Claim C10: the closure returned by NewModuleRunner ignores both the
command and the argument list and returns exactly RunModules of the captured
context and modules. -/
theorem newModuleRunner_delegates (ctx : Bool) (ms : List Module)
    (c c2 : Command) (args args2 : List String) :
    NewModuleRunner ctx ms c args = RunModules ctx ms
  ∧ NewModuleRunner ctx ms c args = NewModuleRunner ctx ms c2 args2 :=
  ⟨rfl, rfl⟩

end CobraModules
